import Mathlib

/-!
Shallow embedding of the `shaia/Rope` Go library (an immutable rope with two
balancing strategies and a line/column index).

Modelling conventions:
* Go strings are byte sequences; we model them as `List Nat` (each entry a
  byte value `0..255`).  The newline byte is `10`.
* A Go `core.Node` is either a `*Leaf` or a `*Concat`.  The Go structs cache
  `lines` (Leaf) and `length`, `depth`, `lines` (Concat); those fields are
  unexported and only ever written by the constructors, so we embed them as
  constructor arguments and carry a well-formedness predicate `WFb` stating
  that the caches agree with the children — exactly what the Go constructors
  establish.
* Go `panic` (out-of-range edit indices, leaf indexing) is modelled with
  `Except`, the error value carrying the data the Go panic message carries.
* Go `int` indices that can be negative at API boundaries are `Int`;
  quantities that are provably non-negative inside the recursions are `Nat`.
-/

set_option maxRecDepth 40000

namespace Rope

/-- The newline byte, `'\n'`. -/
def nl : Nat := 10

/-- Number of `'\n'` bytes in a byte string: Go `strings.Count(s, "\n")`
(counting a one-byte pattern is counting the byte). -/
def countNL : List Nat → Nat
  | [] => 0
  | b :: rest => (if b = nl then 1 else 0) + countNL rest

/-- Go `strings.LastIndex(s, "\n")`: byte index of the last newline, `-1` if
there is none. -/
def lastIndexNL : List Nat → Int
  | [] => -1
  | b :: rest =>
    if 0 ≤ lastIndexNL rest then lastIndexNL rest + 1
    else if b = nl then 0 else -1

/-- A rope node: `core.Leaf` (byte string plus cached newline count) or
`core.Concat` (two children plus cached length, depth and newline count).
The cached fields mirror the unexported Go struct fields. -/
inductive Node where
  | leaf (val : List Nat) (lines : Nat)
  | concat (left right : Node) (length depth lines : Nat)
deriving DecidableEq, Repr

namespace Node

/-- Go `Node.Len()`: `len(l.val)` for a leaf, the cached `length` for a concat. -/
def Len : Node → Nat
  | .leaf v _ => v.length
  | .concat _ _ len _ _ => len

/-- Go `Node.Depth()`: `0` for a leaf, the cached `depth` for a concat. -/
def Depth : Node → Nat
  | .leaf _ _ => 0
  | .concat _ _ _ d _ => d

/-- Go `Node.Lines()`: the cached newline count. -/
def Lines : Node → Nat
  | .leaf _ ln => ln
  | .concat _ _ _ _ ln => ln

/-- Go `Node.String()`: full materialization, all leaf bytes left to right. -/
def String : Node → List Nat
  | .leaf v _ => v
  | .concat l r _ _ _ => l.String ++ r.String

/-- Structural size, used only as a termination measure for the AVL join
(the Go recursion terminates because each call descends into a child). -/
def size : Node → Nat
  | .leaf _ _ => 1
  | .concat l r _ _ _ => 1 + l.size + r.size

end Node

/-- Go `core.NewLeaf(s)`: a leaf with the newline count precomputed. -/
def NewLeaf (s : List Nat) : Node := .leaf s (countNL s)

/-- Go `core.NewConcat(l, r)`: a concat with the three aggregates recomputed
from the children (`length`, `depth = 1 + max`, `lines`). -/
def NewConcat (l r : Node) : Node :=
  .concat l r (l.Len + r.Len) (1 + max l.Depth r.Depth) (l.Lines + r.Lines)

/-- Go `core.MaxLeafMergeSize`. -/
def MaxLeafMergeSize : Nat := 256

/-- Go `core.TryMergeLeaves(left, right)`: merge two leaves whose combined
length is at most 256 bytes, summing the cached newline counts instead of
rescanning.  The Go `(Node, bool)` return is an `Option`. -/
def TryMergeLeaves (left right : Node) : Option Node :=
  if left.Len + right.Len > MaxLeafMergeSize then none
  else
    match left, right with
    | .leaf a la, .leaf b lb => some (.leaf (a ++ b) (la + lb))
    | _, _ => none

/-- Well-formedness: every cached field agrees with the children.  This is an
invariant of every node the Go code can construct, because the cached struct
fields are unexported and only written by `NewLeaf`, `NewConcat`,
`TryMergeLeaves` and `Leaf.Slice`, each of which (re)computes them. -/
def WFb : Node → Bool
  | .leaf v ln => decide (ln = countNL v)
  | .concat l r len d ln =>
    WFb l && WFb r && decide (len = l.Len + r.Len)
      && decide (d = 1 + max l.Depth r.Depth)
      && decide (ln = l.Lines + r.Lines)

/-- The AVL balance invariant: every concat has child depths within 1. -/
def AVLb : Node → Bool
  | .leaf _ _ => true
  | .concat l r _ _ _ =>
    AVLb l && AVLb r && decide (l.Depth ≤ r.Depth + 1)
      && decide (r.Depth ≤ l.Depth + 1)

/-- No concat has a zero-length child (spec invariant 4; holds for every
balancer-produced tree because the balancers shortcut empty sides). -/
def NECb : Node → Bool
  | .leaf _ _ => true
  | .concat l r _ _ _ =>
    NECb l && NECb r && decide (0 < l.Len) && decide (0 < r.Len)

/-- The Fibonacci balance invariant: every node satisfies
`length ≥ fib (depth + 2)` with `fib 0 = 0`, `fib 1 = 1`. -/
def FibInvb : Node → Bool
  | .leaf v _ => decide (Nat.fib 2 ≤ v.length)
  | .concat l r len d _ =>
    FibInvb l && FibInvb r && decide (Nat.fib (d + 2) ≤ len)

/-- Go `AVLBalancer.balance(l, r)`: the local rotation step.  `dDiff` is the
Go `int` difference of the depths. -/
def balance (l r : Node) : Node :=
  if (l.Depth : Int) - (r.Depth : Int) > 1 then
    match l with
    | .leaf _ _ => NewConcat l r
    | .concat ll lr _ _ _ =>
      if lr.Depth > ll.Depth then
        match lr with
        | .concat lrl lrr _ _ _ =>
          NewConcat (NewConcat ll lrl) (NewConcat lrr r)
        | .leaf _ _ => NewConcat ll (NewConcat lr r)
      else NewConcat ll (NewConcat lr r)
  else if (l.Depth : Int) - (r.Depth : Int) < -1 then
    match r with
    | .leaf _ _ => NewConcat l r
    | .concat rl rr _ _ _ =>
      if rl.Depth > rr.Depth then
        match rl with
        | .concat rll rlr _ _ _ =>
          NewConcat (NewConcat l rll) (NewConcat rlr rr)
        | .leaf _ _ => NewConcat (NewConcat l rl) rr
      else NewConcat (NewConcat l rl) rr
  else NewConcat l r

/-- Go `AVLBalancer.Join(left, right)`: empty shortcuts, leaf coalescing,
then recursive join along the deeper side's spine followed by `balance`. -/
def avlJoin (l r : Node) : Node :=
  if l.Len = 0 then r
  else if r.Len = 0 then l
  else
    (TryMergeLeaves l r).getD
      (if l.Depth > r.Depth + 1 then
        match l with
        | .concat ll lr _ _ _ => balance ll (avlJoin lr r)
        | .leaf _ _ => NewConcat l r
      else if r.Depth > l.Depth + 1 then
        match r with
        | .concat rl rr _ _ _ => balance (avlJoin l rl) rr
        | .leaf _ _ => NewConcat l r
      else NewConcat l r)
termination_by l.size + r.size
decreasing_by
  all_goals simp [Node.size]
  all_goals omega

/-- Go `core.JoinNodes`: join through a fresh default (AVL) balancer. -/
def JoinNodes (l r : Node) : Node := avlJoin l r

/-- Go `Leaf.Slice` / `Concat.Slice`.  A whole-range slice returns the node
itself; a leaf slice re-counts newlines on the substring; a spanning concat
slice rejoins the two sides through `JoinNodes` (the AVL balancer).
Go `s[start:end]` on byte strings is `(take end).drop start`. -/
def Node.Slice : Node → Nat → Nat → Node
  | n@(.leaf v _), s, e =>
    if s = 0 ∧ e = v.length then n
    else .leaf ((v.take e).drop s) (countNL ((v.take e).drop s))
  | n@(.concat l r len _ _), s, e =>
    if s = 0 ∧ e = len then n
    else if e ≤ l.Len then l.Slice s e
    else if l.Len ≤ s then r.Slice (s - l.Len) (e - l.Len)
    else JoinNodes (l.Slice s l.Len) (r.Slice 0 (e - l.Len))

/-- Go `rope.Split(n, i)`: `(New(""), n)` at `0`, `(n, New(""))` at `n.Len()`,
otherwise the two slices. -/
def Split (n : Node) (i : Nat) : Node × Node :=
  if i = 0 then (NewLeaf [], n)
  else if i = n.Len then (n, NewLeaf [])
  else (n.Slice 0 i, n.Slice i n.Len)

/-- The payload of the Go panic in `Builder.Insert`:
`"index out of bounds: i=%d, valid range=[0,%d]"`. -/
structure InsertErr where
  i : Int
  hi : Nat
deriving DecidableEq, Repr

/-- The payload of the Go panic in `Builder.Delete`:
`"index out of bounds or invalid range: start=%d, end=%d, valid range=[0,%d]"`. -/
structure DeleteErr where
  start : Int
  stop : Int
  hi : Nat
deriving DecidableEq, Repr

/-- The payload of the Go runtime panic on a bad leaf index:
`"index out of range [idx] with length len"`. -/
structure IndexErr where
  idx : Int
  len : Nat
deriving DecidableEq, Repr

/-- Go `Node.ByteAt`.  A concat descends (`idx < left.Len()` goes left, else
right with `idx - left.Len()`); a leaf indexes `l.val[idx]`, which panics at
runtime when out of range — the panic carries the (local) index and length. -/
def Node.ByteAt : Node → Int → Except IndexErr Nat
  | .leaf v _, idx =>
    if 0 ≤ idx ∧ idx < (v.length : Int) then .ok (v.getD idx.toNat 0)
    else .error ⟨idx, v.length⟩
  | .concat l r _ _ _, idx =>
    if idx < (l.Len : Int) then l.ByteAt idx else r.ByteAt (idx - l.Len)

/-- Go `Builder.Insert` (the default builder joins through the AVL balancer).
Out-of-range `i` panics with the offending index and the valid range. -/
def Insert (n : Node) (i : Int) (text : List Nat) : Except InsertErr Node :=
  if i < 0 ∨ i > (n.Len : Int) then .error ⟨i, n.Len⟩
  else
    let inserted := NewLeaf text
    if i = 0 then .ok (avlJoin inserted n)
    else if i = (n.Len : Int) then .ok (avlJoin n inserted)
    else
      let p := Split n i.toNat
      .ok (avlJoin (avlJoin p.1 inserted) p.2)

/-- Go `Builder.Delete`.  An inverted or out-of-range range panics with the
offending indices and the valid range; deleting everything returns `New("")`. -/
def Delete (n : Node) (start stop : Int) : Except DeleteErr Node :=
  if start < 0 ∨ stop > (n.Len : Int) ∨ start > stop then
    .error ⟨start, stop, n.Len⟩
  else if start = 0 ∧ stop = (n.Len : Int) then .ok (NewLeaf [])
  else
    let p := Split n start.toNat
    let q := Split p.2 (stop - start).toNat
    .ok (avlJoin p.1 q.2)

/-- Number of entries in the Go `fibs` table: Fibonacci numbers are
precomputed until 64-bit `int` overflow, which stops after `fibs[92]`, so the
table holds indices `0 .. 92`.  Entry `i` equals `Nat.fib i`. -/
def fibsLen : Nat := 93

/-- Go `collectLeaves`: in-order leaf sequence of a tree. -/
def collectLeaves : Node → List Node
  | n@(.leaf _ _) => [n]
  | .concat l r _ _ _ => collectLeaves l ++ collectLeaves r

/-- Go `buildBalanced`: split the leaf sequence at its midpoint and combine
with `NewConcat`. -/
def buildBalanced : List Node → Node
  | [] => NewLeaf []
  | [x] => x
  | x :: y :: rest =>
    NewConcat
      (buildBalanced ((x :: y :: rest).take ((x :: y :: rest).length / 2)))
      (buildBalanced ((x :: y :: rest).drop ((x :: y :: rest).length / 2)))
termination_by ls => ls.length
decreasing_by
  all_goals simp
  all_goals omega

/-- Go `FibonacciBalancer.rebalance`: flatten and rebuild perfectly balanced. -/
def fibRebalance (n : Node) : Node := buildBalanced (collectLeaves n)

/-- Go `FibonacciBalancer.Join`: empty shortcuts, leaf coalescing, then a
cheap concat that is rebuilt whenever `depth + 2` falls off the `fibs` table
or `length < fibs[depth + 2]`. -/
def fibJoin (l r : Node) : Node :=
  if l.Len = 0 then r
  else if r.Len = 0 then l
  else
    match TryMergeLeaves l r with
    | some m => m
    | none =>
      if (NewConcat l r).Depth + 2 ≥ fibsLen then fibRebalance (NewConcat l r)
      else if (NewConcat l r).Len < Nat.fib ((NewConcat l r).Depth + 2) then
        fibRebalance (NewConcat l r)
      else NewConcat l r

/-- Whether a byte is a UTF-8 continuation byte (`0x80 .. 0xBF`). -/
def isCont (b : Nat) : Bool := 0x80 ≤ b && b ≤ 0xBF

/-- Valid second bytes of a 3-byte UTF-8 sequence, per lead byte (Go's
`utf8.acceptRanges`). -/
def accept3 (b b1 : Nat) : Bool :=
  if b = 0xE0 then 0xA0 ≤ b1 && b1 ≤ 0xBF
  else if b = 0xED then 0x80 ≤ b1 && b1 ≤ 0x9F
  else isCont b1

/-- Valid second bytes of a 4-byte UTF-8 sequence, per lead byte. -/
def accept4 (b b1 : Nat) : Bool :=
  if b = 0xF0 then 0x90 ≤ b1 && b1 ≤ 0xBF
  else if b = 0xF4 then 0x80 ≤ b1 && b1 ≤ 0x8F
  else isCont b1

/-- Byte width of the next rune, as Go's `for i, r := range s` advances `i`
(`utf8.DecodeRuneInString`): ASCII and every invalid encoding advance one
byte, valid multi-byte sequences advance their full width. -/
def runeSize : List Nat → Nat
  | [] => 1
  | b :: rest =>
    if b < 0x80 then 1
    else if b < 0xC2 then 1
    else if b ≤ 0xDF then
      match rest with
      | b1 :: _ => if isCont b1 then 2 else 1
      | [] => 1
    else if b ≤ 0xEF then
      match rest with
      | b1 :: b2 :: _ => if accept3 b b1 && isCont b2 then 3 else 1
      | _ => 1
    else if b ≤ 0xF4 then
      match rest with
      | b1 :: b2 :: b3 :: _ =>
        if accept4 b b1 && isCont b2 && isCont b3 then 4 else 1
      | _ => 1
    else 1

/-- The rune-by-rune scan in the leaf case of Go `rowColToOffsetRec`:

    currentLine := 0; offset := 0
    for i, r := range s {
      if currentLine == row { if i-offset == col { return i } }
      if r == '\n' { currentLine++; offset = i + 1
                     if currentLine > row { return -1 } } }
    if currentLine == row { if len(s)-offset == col { return len(s) } }
    return -1

`rem` is the unread suffix, `i` its byte index, `total = len(s)`.  The rune
`r` equals `'\n'` exactly when the lead byte is `10` (a newline byte is a
complete one-byte rune, and no other decode — valid or replacement — yields
`'\n'`).  The loop advances `i` by `runeSize`; we recurse on `fuel`, which
starts at `len(s)` and dominates the number of iterations because every
iteration consumes at least one byte. -/
def scanLeafF (row col total : Nat) :
    Nat → List Nat → Nat → Nat → Nat → Int
  | _, [], _, currentLine, offset =>
    if currentLine = row ∧ total - offset = col then (total : Int) else -1
  | 0, _ :: _, _, _, _ => -1
  | fuel + 1, b :: rest, i, currentLine, offset =>
    if currentLine = row ∧ i - offset = col then (i : Int)
    else
      let sz := runeSize (b :: rest)
      if b = nl then
        if currentLine + 1 > row then -1
        else scanLeafF row col total fuel ((b :: rest).drop sz) (i + sz)
          (currentLine + 1) (i + 1)
      else scanLeafF row col total fuel ((b :: rest).drop sz) (i + sz)
        currentLine offset

/-- The leaf scan of Go `rowColToOffsetRec`, entered at the start of `s`. -/
def scanLeaf (row col : Nat) (s : List Nat) : Int :=
  scanLeafF row col s.length s.length s 0 0 0

/-- Go `rowColToOffsetRec`.  At a concat, `row < left.Lines()` and
`row == left.Lines()` both recurse left; the `row > left.Lines()` branch of
the Go source is an abandoned placeholder that falls through to `return -1`
(its body is only commentary ending in "Placeholder for now"). -/
def rowColToOffsetRec : Node → Nat → Nat → Int
  | .leaf v _, row, col => scanLeaf row col v
  | .concat l _ _ _ _, row, col =>
    if row < l.Lines then rowColToOffsetRec l row col
    else if row = l.Lines then rowColToOffsetRec l row col
    else -1

/-- Go `RowColToOffset(n, row, col)`: `-1` for a nil node, negative inputs,
or `row > n.Lines()`; otherwise the recursive search. -/
def RowColToOffset (n : Option Node) (row col : Int) : Int :=
  match n with
  | none => -1
  | some n =>
    if row < 0 ∨ col < 0 then -1
    else if row > (n.Lines : Int) then -1
    else rowColToOffsetRec n row.toNat col.toNat

/-- Go `lastLineLen(n)`: length of the trailing line, by rightmost descent.
If the right child contains a newline its last line is the total last line;
otherwise the right child extends the left child's last line. -/
def lastLineLen : Node → Int
  | .leaf v _ =>
    if lastIndexNL v = -1 then (v.length : Int)
    else (v.length : Int) - (lastIndexNL v + 1)
  | .concat l r _ _ _ =>
    if r.Lines > 0 then lastLineLen r
    else lastLineLen l + (r.Len : Int)

/-- Go `offsetToRowColRec`.  A leaf counts newlines in `s[:offset]` and
measures the distance from the last one; a concat recurses (left when
`offset < left.Len()`), adds `left.Lines()` to the row, and on the
continuation line (`r == 0`) adds `lastLineLen(left)` to the column. -/
def offsetToRowColRec : Node → Nat → Int × Int
  | .leaf v _, offset =>
    ((countNL (v.take offset) : Int),
      (offset : Int) - (lastIndexNL (v.take offset) + 1))
  | .concat l r _ _ _, offset =>
    if offset < l.Len then offsetToRowColRec l offset
    else
      ((l.Lines : Int) + (offsetToRowColRec r (offset - l.Len)).1,
        if (offsetToRowColRec r (offset - l.Len)).1 = 0 then
          (offsetToRowColRec r (offset - l.Len)).2 + lastLineLen l
        else (offsetToRowColRec r (offset - l.Len)).2)

/-- Go `OffsetToRowCol(n, offset)`: `(-1, -1)` for a nil node, a negative
offset, or `offset > n.Len()`; otherwise the recursive conversion. -/
def OffsetToRowCol (n : Option Node) (offset : Int) : Int × Int :=
  match n with
  | none => (-1, -1)
  | some n =>
    if offset < 0 then (-1, -1)
    else if offset > (n.Len : Int) then (-1, -1)
    else offsetToRowColRec n offset.toNat

/-! Spec-side observers (not Go functions): used only to state properties. -/

/-- Lengths of the leaves of a tree in left-to-right order. -/
def leafSizes (n : Node) : List Nat := (collectLeaves n).map Node.Len

/-- Whether every two adjacent entries sum to more than `MaxLeafMergeSize`
(the spec's coalescing invariant, read off the leaf sizes). -/
def adjacentPairsOK : List Nat → Bool
  | a :: b :: rest => decide (MaxLeafMergeSize < a + b) && adjacentPairsOK (b :: rest)
  | _ => true

/-- Whether an `Except` result is an error (a Go panic in this model). -/
def isErr {ε α : Type} : Except ε α → Bool
  | .error _ => true
  | .ok _ => false

/-- The error payload of an `Except` result, if any. -/
def errOf {ε α : Type} : Except ε α → Option ε
  | .error e => some e
  | .ok _ => none

/-! Helper lemmas. -/

theorem countNL_append (u v : List Nat) :
    countNL (u ++ v) = countNL u + countNL v := by
  induction u with
  | nil => simp [countNL]
  | cons b rest ih => simp [countNL, ih] ; omega

theorem lastIndexNL_ge (v : List Nat) :
    -1 ≤ lastIndexNL v ∧ lastIndexNL v < (v.length : Int) := by
  induction v with
  | nil => simp [lastIndexNL]
  | cons b rest ih =>
    simp only [lastIndexNL, List.length_cons]
    split_ifs <;> omega

theorem lastIndexNL_neg_iff (v : List Nat) :
    lastIndexNL v = -1 ↔ countNL v = 0 := by
  induction v with
  | nil => simp [lastIndexNL, countNL]
  | cons b rest ih =>
    have hg := lastIndexNL_ge rest
    by_cases hc : countNL rest = 0
    · have h0 : lastIndexNL rest = -1 := ih.mpr hc
      simp only [lastIndexNL, countNL, h0, hc]
      split_ifs <;> first | omega | simp
    · have h0 : lastIndexNL rest ≠ -1 := fun h => hc (ih.mp h)
      simp only [lastIndexNL, countNL]
      split_ifs <;> omega

theorem lastIndexNL_append (u v : List Nat) :
    lastIndexNL (u ++ v)
      = if countNL v = 0 then lastIndexNL u
        else (u.length : Int) + lastIndexNL v := by
  induction u with
  | nil =>
    have hg := lastIndexNL_neg_iff v
    simp only [List.nil_append, lastIndexNL, List.length_nil]
    split_ifs <;> omega
  | cons b rest ih =>
    have hgv := lastIndexNL_ge v
    have hnv := lastIndexNL_neg_iff v
    by_cases hv : countNL v = 0
    · rw [if_pos hv]
      rw [if_pos hv] at ih
      simp only [List.cons_append, lastIndexNL, List.append_eq, ih]
    · rw [if_neg hv]
      rw [if_neg hv] at ih
      simp only [List.cons_append, lastIndexNL, List.append_eq, ih,
        List.length_cons]
      rw [if_pos (by omega : (0 : Int) ≤ (rest.length : Int) + lastIndexNL v)]
      omega

theorem WFb_concat_iff (l r : Node) (len d ln : Nat) :
    WFb (.concat l r len d ln) = true
      ↔ WFb l = true ∧ WFb r = true ∧ len = l.Len + r.Len
        ∧ d = 1 + max l.Depth r.Depth ∧ ln = l.Lines + r.Lines := by
  simp [WFb, and_assoc]

theorem wf_string (n : Node) (h : WFb n = true) :
    n.String.length = n.Len ∧ countNL n.String = n.Lines := by
  induction n with
  | leaf v ln =>
    simp only [WFb, decide_eq_true_eq] at h
    simp [Node.String, Node.Len, Node.Lines, h]
  | concat l r len d ln ihl ihr =>
    rw [WFb_concat_iff] at h
    obtain ⟨hl, hr, hlen, hd, hln⟩ := h
    obtain ⟨h1, h2⟩ := ihl hl
    obtain ⟨h3, h4⟩ := ihr hr
    simp [Node.String, Node.Len, Node.Lines, List.length_append,
      countNL_append, h1, h2, h3, h4, hlen, hln]

theorem WFb_NewLeaf (s : List Nat) : WFb (NewLeaf s) = true := by
  simp [WFb, NewLeaf]

theorem WFb_NewConcat (l r : Node) (hl : WFb l = true) (hr : WFb r = true) :
    WFb (NewConcat l r) = true := by
  rw [NewConcat, WFb_concat_iff]
  exact ⟨hl, hr, rfl, rfl, rfl⟩

theorem tryMergeLeaves_some (l r m : Node) (hl : WFb l = true)
    (hr : WFb r = true) (hm : TryMergeLeaves l r = some m) :
    WFb m = true ∧ m.Lines = l.Lines + r.Lines
      ∧ m.String = l.String ++ r.String ∧ m.Len = l.Len + r.Len
      ∧ m.Depth = 0 ∧ (1 ≤ l.Len → FibInvb m = true)
      ∧ l.Depth = 0 ∧ r.Depth = 0
      ∧ AVLb m = true ∧ NECb m = true := by
  unfold TryMergeLeaves at hm
  by_cases hbig : l.Len + r.Len > MaxLeafMergeSize
  · rw [if_pos hbig] at hm
    exact absurd hm (by simp)
  · rw [if_neg hbig] at hm
    cases l with
    | concat a b c d e => exact absurd hm (by simp)
    | leaf a la =>
      cases r with
      | concat a2 b2 c2 d2 e2 => exact absurd hm (by simp)
      | leaf b lb =>
        injection hm with hm
        subst hm
        simp only [WFb, decide_eq_true_eq] at hl hr
        refine ⟨?_, rfl, rfl, ?_, rfl, ?_, rfl, rfl, rfl, rfl⟩
        · simp [WFb, countNL_append, hl, hr]
        · simp [Node.Len, List.length_append]
        · intro hpos
          simp only [Node.Len] at hpos
          simp only [FibInvb, decide_eq_true_eq, List.length_append,
            Nat.fib_two]
          omega

theorem tryMergeLeaves_none_of_large (l r : Node)
    (h : MaxLeafMergeSize < l.Len + r.Len) : TryMergeLeaves l r = none := by
  unfold TryMergeLeaves
  rw [if_pos h]

theorem avlJoin_eq_newConcat (l r : Node) (hl : ¬ l.Len = 0) (hr : ¬ r.Len = 0)
    (hm : TryMergeLeaves l r = none) (h1 : l.Depth ≤ r.Depth + 1)
    (h2 : r.Depth ≤ l.Depth + 1) : avlJoin l r = NewConcat l r := by
  rw [avlJoin.eq_def, if_neg hl, if_neg hr, hm, Option.getD_none,
    if_neg (by omega), if_neg (by omega)]

theorem size_pos (n : Node) : 1 ≤ n.size := by
  cases n with
  | leaf v ln => simp [Node.size]
  | concat a b c d e =>
    simp only [Node.size]
    omega

theorem String_NewConcat (l r : Node) :
    (NewConcat l r).String = l.String ++ r.String := rfl

theorem Len_NewConcat (l r : Node) : (NewConcat l r).Len = l.Len + r.Len := rfl

theorem Depth_NewConcat (l r : Node) :
    (NewConcat l r).Depth = 1 + max l.Depth r.Depth := rfl

theorem Lines_NewConcat (l r : Node) :
    (NewConcat l r).Lines = l.Lines + r.Lines := rfl

theorem Depth_leaf (v : List Nat) (ln : Nat) : (Node.leaf v ln).Depth = 0 := rfl

theorem Depth_concat (l r : Node) (len d ln : Nat) :
    (Node.concat l r len d ln).Depth = d := rfl

theorem Len_leaf (v : List Nat) (ln : Nat) :
    (Node.leaf v ln).Len = v.length := rfl

theorem Len_concat (l r : Node) (len d ln : Nat) :
    (Node.concat l r len d ln).Len = len := rfl

theorem AVLb_concat_iff (l r : Node) (len d ln : Nat) :
    AVLb (.concat l r len d ln) = true
      ↔ AVLb l = true ∧ AVLb r = true ∧ l.Depth ≤ r.Depth + 1
        ∧ r.Depth ≤ l.Depth + 1 := by
  simp [AVLb, and_assoc]

theorem NECb_concat_iff (l r : Node) (len d ln : Nat) :
    NECb (.concat l r len d ln) = true
      ↔ NECb l = true ∧ NECb r = true ∧ 0 < l.Len ∧ 0 < r.Len := by
  simp [NECb, and_assoc]

theorem AVLb_NewConcat_iff (l r : Node) :
    AVLb (NewConcat l r) = true
      ↔ AVLb l = true ∧ AVLb r = true ∧ l.Depth ≤ r.Depth + 1
        ∧ r.Depth ≤ l.Depth + 1 := AVLb_concat_iff l r _ _ _

theorem NECb_NewConcat_iff (l r : Node) :
    NECb (NewConcat l r) = true
      ↔ NECb l = true ∧ NECb r = true ∧ 0 < l.Len ∧ 0 < r.Len :=
  NECb_concat_iff l r _ _ _

theorem avlJoin_empty_left (l r : Node) (h : l.Len = 0) : avlJoin l r = r := by
  rw [avlJoin.eq_def, if_pos h]

theorem avlJoin_empty_right (l r : Node) (h1 : ¬ l.Len = 0) (h : r.Len = 0) :
    avlJoin l r = l := by
  rw [avlJoin.eq_def, if_neg h1, if_pos h]

theorem avlJoin_merge (l r m : Node) (h1 : ¬ l.Len = 0) (h2 : ¬ r.Len = 0)
    (hm : TryMergeLeaves l r = some m) : avlJoin l r = m := by
  rw [avlJoin.eq_def, if_neg h1, if_neg h2, hm, Option.getD_some]

theorem avlJoin_left_deep (ll lr : Node) (x y z : Nat) (r : Node)
    (h1 : ¬ (Node.concat ll lr x y z).Len = 0) (h2 : ¬ r.Len = 0)
    (hm : TryMergeLeaves (.concat ll lr x y z) r = none)
    (h3 : (Node.concat ll lr x y z).Depth > r.Depth + 1) :
    avlJoin (.concat ll lr x y z) r = balance ll (avlJoin lr r) := by
  rw [avlJoin.eq_def, if_neg h1, if_neg h2, hm, Option.getD_none, if_pos h3]

theorem avlJoin_right_deep (l : Node) (rl rr : Node) (x y z : Nat)
    (h1 : ¬ l.Len = 0) (h2 : ¬ (Node.concat rl rr x y z).Len = 0)
    (hm : TryMergeLeaves l (.concat rl rr x y z) = none)
    (h3 : ¬ l.Depth > (Node.concat rl rr x y z).Depth + 1)
    (h4 : (Node.concat rl rr x y z).Depth > l.Depth + 1) :
    avlJoin l (.concat rl rr x y z) = balance (avlJoin l rl) rr := by
  rw [avlJoin.eq_def, if_neg h1, if_neg h2, hm, Option.getD_none, if_neg h3,
    if_pos h4]

theorem balance_wf_mat (l r : Node) (hl : WFb l = true) (hr : WFb r = true) :
    WFb (balance l r) = true
      ∧ (balance l r).String = l.String ++ r.String := by
  by_cases h1 : (l.Depth : Int) - (r.Depth : Int) > 1
  · cases l with
    | leaf v ln =>
      simp only [balance]
      rw [if_pos h1]
      exact ⟨WFb_NewConcat _ _ hl hr, rfl⟩
    | concat ll lr x y z =>
      rw [WFb_concat_iff] at hl
      obtain ⟨hll, hlr, hx, hy, hz⟩ := hl
      by_cases h2 : lr.Depth > ll.Depth
      · cases lr with
        | leaf v2 ln2 =>
          simp only [balance]
          rw [if_pos h1, if_pos h2]
          exact ⟨WFb_NewConcat _ _ hll (WFb_NewConcat _ _ hlr hr),
            by simp [String_NewConcat, Node.String, List.append_assoc]⟩
        | concat lrl lrr x2 y2 z2 =>
          rw [WFb_concat_iff] at hlr
          obtain ⟨hlrl, hlrr, -, -, -⟩ := hlr
          simp only [balance]
          rw [if_pos h1, if_pos h2]
          refine ⟨WFb_NewConcat _ _ (WFb_NewConcat _ _ hll hlrl)
              (WFb_NewConcat _ _ hlrr hr), ?_⟩
          simp [String_NewConcat, Node.String, List.append_assoc]
      · simp only [balance]
        rw [if_pos h1, if_neg h2]
        exact ⟨WFb_NewConcat _ _ hll (WFb_NewConcat _ _ hlr hr),
          by simp [String_NewConcat, Node.String, List.append_assoc]⟩
  · by_cases h2 : (l.Depth : Int) - (r.Depth : Int) < -1
    · cases r with
      | leaf v ln =>
        simp only [balance]
        rw [if_neg h1, if_pos h2]
        exact ⟨WFb_NewConcat _ _ hl hr, rfl⟩
      | concat rl rr x y z =>
        rw [WFb_concat_iff] at hr
        obtain ⟨hrl, hrr, hx, hy, hz⟩ := hr
        by_cases h3 : rl.Depth > rr.Depth
        · cases rl with
          | leaf v2 ln2 =>
            simp only [balance]
            rw [if_neg h1, if_pos h2, if_pos h3]
            exact ⟨WFb_NewConcat _ _ (WFb_NewConcat _ _ hl hrl) hrr,
              by simp [String_NewConcat, Node.String, List.append_assoc]⟩
          | concat rll rlr x2 y2 z2 =>
            rw [WFb_concat_iff] at hrl
            obtain ⟨hrll, hrlr, -, -, -⟩ := hrl
            simp only [balance]
            rw [if_neg h1, if_pos h2, if_pos h3]
            refine ⟨WFb_NewConcat _ _ (WFb_NewConcat _ _ hl hrll)
                (WFb_NewConcat _ _ hrlr hrr), ?_⟩
            simp [String_NewConcat, Node.String, List.append_assoc]
        · simp only [balance]
          rw [if_neg h1, if_pos h2, if_neg h3]
          exact ⟨WFb_NewConcat _ _ (WFb_NewConcat _ _ hl hrl) hrr,
            by simp [String_NewConcat, Node.String, List.append_assoc]⟩
    · simp only [balance]
      rw [if_neg h1, if_neg h2]
      exact ⟨WFb_NewConcat _ _ hl hr, rfl⟩

theorem len_zero_leaf_depth (n : Node) (hw : WFb n = true)
    (hn : NECb n = true) (h : n.Len = 0) : n.Depth = 0 := by
  cases n with
  | leaf v ln => rfl
  | concat l r len d ln =>
    rw [WFb_concat_iff] at hw
    rw [NECb_concat_iff] at hn
    simp only [Node.Len] at h
    omega

theorem balance_avl (a b : Node)
    (hwa : WFb a = true) (haa : AVLb a = true) (hna : NECb a = true)
    (hwb : WFb b = true) (hab : AVLb b = true) (hnb : NECb b = true)
    (hpa : 0 < a.Len) (hpb : 0 < b.Len)
    (hd1 : a.Depth ≤ b.Depth + 2) (hd2 : b.Depth ≤ a.Depth + 2) :
    AVLb (balance a b) = true ∧ NECb (balance a b) = true
      ∧ max a.Depth b.Depth ≤ (balance a b).Depth
      ∧ (balance a b).Depth ≤ max a.Depth b.Depth + 1
      ∧ (a.Depth ≤ b.Depth + 1 → b.Depth ≤ a.Depth + 1 →
          (balance a b).Depth = max a.Depth b.Depth + 1) := by
  by_cases h1 : (a.Depth : Int) - (b.Depth : Int) > 1
  · cases a with
    | leaf v ln =>
      simp only [Depth_leaf] at h1
      omega
    | concat ll lr x y z =>
      rw [WFb_concat_iff] at hwa
      obtain ⟨hwll, hwlr, hx, hy, hz⟩ := hwa
      rw [AVLb_concat_iff] at haa
      obtain ⟨hall, halr, ha1, ha2⟩ := haa
      rw [NECb_concat_iff] at hna
      obtain ⟨hnll, hnlr, hp1, hp2⟩ := hna
      simp only [Depth_concat] at h1 hd1 hd2 ⊢
      by_cases h2 : lr.Depth > ll.Depth
      · cases lr with
        | leaf v2 ln2 =>
          simp only [Depth_leaf] at h2
          omega
        | concat lrl lrr x2 y2 z2 =>
          rw [WFb_concat_iff] at hwlr
          obtain ⟨hwlrl, hwlrr, hx2, hy2, hz2⟩ := hwlr
          rw [AVLb_concat_iff] at halr
          obtain ⟨halrl, halrr, hb1, hb2⟩ := halr
          rw [NECb_concat_iff] at hnlr
          obtain ⟨hnlrl, hnlrr, hp3, hp4⟩ := hnlr
          simp only [Depth_concat] at h2 ha1 ha2 hy
          simp only [Len_concat] at hp2 hx
          simp only [balance]
          rw [if_pos (by simp only [Depth_concat] ; omega :
            ((Node.concat ll (Node.concat lrl lrr x2 y2 z2) x y z).Depth : Int)
              - (b.Depth : Int) > 1)]
          rw [if_pos (by simp only [Depth_concat] ; omega :
            (Node.concat lrl lrr x2 y2 z2).Depth > ll.Depth)]
          refine ⟨?_, ?_, ?_, ?_, ?_⟩
          · simp only [NewConcat, AVLb_concat_iff, Depth_concat]
            repeat' apply And.intro
            all_goals first | assumption | omega
          · simp only [NewConcat, NECb_concat_iff, Len_concat]
            repeat' apply And.intro
            all_goals first | assumption | omega
          · simp only [NewConcat, Depth_concat]
            omega
          · simp only [NewConcat, Depth_concat]
            omega
          · intro hc1 hc2
            omega
      · simp only [balance]
        rw [if_pos (by simp only [Depth_concat] ; omega :
          ((Node.concat ll lr x y z).Depth : Int) - (b.Depth : Int) > 1)]
        rw [if_neg h2]
        refine ⟨?_, ?_, ?_, ?_, ?_⟩
        · simp only [NewConcat, AVLb_concat_iff, Depth_concat]
          repeat' apply And.intro
          all_goals first | assumption | omega
        · simp only [NewConcat, NECb_concat_iff, Len_concat]
          repeat' apply And.intro
          all_goals first | assumption | omega
        · simp only [NewConcat, Depth_concat]
          omega
        · simp only [NewConcat, Depth_concat]
          omega
        · intro hc1 hc2
          omega
  · by_cases h2 : (a.Depth : Int) - (b.Depth : Int) < -1
    · cases b with
      | leaf v ln =>
        simp only [Depth_leaf] at h2
        omega
      | concat rl rr x y z =>
        rw [WFb_concat_iff] at hwb
        obtain ⟨hwrl, hwrr, hx, hy, hz⟩ := hwb
        rw [AVLb_concat_iff] at hab
        obtain ⟨harl, harr, ha1, ha2⟩ := hab
        rw [NECb_concat_iff] at hnb
        obtain ⟨hnrl, hnrr, hp1, hp2⟩ := hnb
        simp only [Depth_concat] at h1 h2 hd1 hd2 ⊢
        by_cases h3 : rl.Depth > rr.Depth
        · cases rl with
          | leaf v2 ln2 =>
            simp only [Depth_leaf] at h3
            omega
          | concat rll rlr x2 y2 z2 =>
            rw [WFb_concat_iff] at hwrl
            obtain ⟨hwrll, hwrlr, hx2, hy2, hz2⟩ := hwrl
            rw [AVLb_concat_iff] at harl
            obtain ⟨harll, harlr, hb1, hb2⟩ := harl
            rw [NECb_concat_iff] at hnrl
            obtain ⟨hnrll, hnrlr, hp3, hp4⟩ := hnrl
            simp only [Depth_concat] at h3 ha1 ha2 hy
            simp only [Len_concat] at hp1 hx
            simp only [balance]
            rw [if_neg (by simp only [Depth_concat] ; omega :
              ¬ ((a.Depth : Int)
                - ((Node.concat (Node.concat rll rlr x2 y2 z2) rr x y z).Depth
                  : Int) > 1))]
            rw [if_pos (by simp only [Depth_concat] ; omega :
              ((a.Depth : Int)
                - ((Node.concat (Node.concat rll rlr x2 y2 z2) rr x y z).Depth
                  : Int) < -1))]
            rw [if_pos (by simp only [Depth_concat] ; omega :
              (Node.concat rll rlr x2 y2 z2).Depth > rr.Depth)]
            refine ⟨?_, ?_, ?_, ?_, ?_⟩
            · simp only [NewConcat, AVLb_concat_iff, Depth_concat]
              repeat' apply And.intro
              all_goals first | assumption | omega
            · simp only [NewConcat, NECb_concat_iff, Len_concat]
              repeat' apply And.intro
              all_goals first | assumption | omega
            · simp only [NewConcat, Depth_concat]
              omega
            · simp only [NewConcat, Depth_concat]
              omega
            · intro hc1 hc2
              omega
        · simp only [balance]
          rw [if_neg (by simp only [Depth_concat] ; omega :
            ¬ ((a.Depth : Int)
              - ((Node.concat rl rr x y z).Depth : Int) > 1))]
          rw [if_pos (by simp only [Depth_concat] ; omega :
            ((a.Depth : Int) - ((Node.concat rl rr x y z).Depth : Int) < -1))]
          rw [if_neg h3]
          refine ⟨?_, ?_, ?_, ?_, ?_⟩
          · simp only [NewConcat, AVLb_concat_iff, Depth_concat]
            repeat' apply And.intro
            all_goals first | assumption | omega
          · simp only [NewConcat, NECb_concat_iff, Len_concat]
            repeat' apply And.intro
            all_goals first | assumption | omega
          · simp only [NewConcat, Depth_concat]
            omega
          · simp only [NewConcat, Depth_concat]
            omega
          · intro hc1 hc2
            omega
    · simp only [balance]
      rw [if_neg h1, if_neg h2]
      refine ⟨?_, ?_, ?_, ?_, ?_⟩
      · simp only [NewConcat, AVLb_concat_iff, Depth_concat]
        repeat' apply And.intro
        all_goals first | assumption | omega
      · simp only [NewConcat, NECb_concat_iff, Len_concat]
        repeat' apply And.intro
        all_goals assumption
      · simp only [NewConcat, Depth_concat]
        omega
      · simp only [NewConcat, Depth_concat]
        omega
      · intro hc1 hc2
        simp only [NewConcat, Depth_concat]
        omega

theorem avlJoin_wf_mat :
    ∀ (N : Nat) (l r : Node), l.size + r.size ≤ N →
      WFb l = true → WFb r = true →
      WFb (avlJoin l r) = true
        ∧ (avlJoin l r).String = l.String ++ r.String := by
  intro N
  induction N with
  | zero =>
    intro l r hN _ _
    have := size_pos l
    have := size_pos r
    omega
  | succ N ih =>
    intro l r hN hl hr
    by_cases h1 : l.Len = 0
    · rw [avlJoin_empty_left l r h1]
      have h0 : l.String = [] :=
        List.length_eq_zero.mp (by rw [(wf_string l hl).1, h1])
      exact ⟨hr, by rw [h0] ; simp⟩
    · by_cases h2 : r.Len = 0
      · rw [avlJoin_empty_right l r h1 h2]
        have h0 : r.String = [] :=
          List.length_eq_zero.mp (by rw [(wf_string r hr).1, h2])
        exact ⟨hl, by rw [h0] ; simp⟩
      · cases hm : TryMergeLeaves l r with
        | some m =>
          rw [avlJoin_merge l r m h1 h2 hm]
          obtain ⟨w1, -, w3, -, -, -, -, -, -, -⟩ :=
            tryMergeLeaves_some l r m hl hr hm
          exact ⟨w1, w3⟩
        | none =>
          by_cases h3 : l.Depth > r.Depth + 1
          · cases l with
            | leaf v ln => simp [Node.Depth] at h3
            | concat ll lr x y z =>
              rw [avlJoin_left_deep ll lr x y z r h1 h2 hm h3]
              have hl' := hl
              rw [WFb_concat_iff] at hl'
              obtain ⟨hll, hlr, -, -, -⟩ := hl'
              have hsz : lr.size + r.size ≤ N := by
                have hs : (Node.concat ll lr x y z).size
                    = 1 + ll.size + lr.size := rfl
                have := size_pos ll
                omega
              obtain ⟨w1, w2⟩ := ih lr r hsz hlr hr
              obtain ⟨b1, b2⟩ := balance_wf_mat ll (avlJoin lr r) hll w1
              refine ⟨b1, ?_⟩
              rw [b2, w2]
              simp [Node.String, List.append_assoc]
          · by_cases h4 : r.Depth > l.Depth + 1
            · cases r with
              | leaf v ln => simp [Node.Depth] at h4
              | concat rl rr x y z =>
                rw [avlJoin_right_deep l rl rr x y z h1 h2 hm h3 h4]
                have hr' := hr
                rw [WFb_concat_iff] at hr'
                obtain ⟨hrl, hrr, -, -, -⟩ := hr'
                have hsz : l.size + rl.size ≤ N := by
                  have hs : (Node.concat rl rr x y z).size
                      = 1 + rl.size + rr.size := rfl
                  have := size_pos rr
                  omega
                obtain ⟨w1, w2⟩ := ih l rl hsz hl hrl
                obtain ⟨b1, b2⟩ := balance_wf_mat (avlJoin l rl) rr w1 hrr
                refine ⟨b1, ?_⟩
                rw [b2, w2]
                simp [Node.String, List.append_assoc]
            · rw [avlJoin_eq_newConcat l r h1 h2 hm (by omega) (by omega)]
              exact ⟨WFb_NewConcat _ _ hl hr, rfl⟩

theorem slice_spec (n : Node) :
    WFb n = true → ∀ s e : Nat, s ≤ e → e ≤ n.Len →
      WFb (n.Slice s e) = true
        ∧ (n.Slice s e).String = (n.String.take e).drop s := by
  induction n with
  | leaf v ln =>
    intro hw s e hse he
    simp only [Node.Slice]
    by_cases h : s = 0 ∧ e = v.length
    · rw [if_pos h]
      obtain ⟨rfl, rfl⟩ := h
      exact ⟨hw, by simp [Node.String]⟩
    · rw [if_neg h]
      exact ⟨by simp [WFb], rfl⟩
  | concat l r len d ln ihl ihr =>
    intro hw s e hse he
    have hw' := hw
    rw [WFb_concat_iff] at hw'
    obtain ⟨hl, hr, hlen, hd, hln⟩ := hw'
    obtain ⟨hlS, hlC⟩ := wf_string l hl
    obtain ⟨hrS, hrC⟩ := wf_string r hr
    rw [Node.Len] at he
    simp only [Node.Slice]
    by_cases h0 : s = 0 ∧ e = len
    · rw [if_pos h0]
      obtain ⟨rfl, rfl⟩ := h0
      refine ⟨hw, ?_⟩
      rw [List.drop_zero, List.take_of_length_le]
      rw [Node.String, List.length_append]
      omega
    · rw [if_neg h0]
      by_cases h1 : e ≤ l.Len
      · rw [if_pos h1]
        obtain ⟨w1, w2⟩ := ihl hl s e hse (by omega)
        refine ⟨w1, ?_⟩
        rw [w2, Node.String, List.take_append_eq_append_take,
          (by omega : e - l.String.length = 0)]
        simp
      · rw [if_neg h1]
        by_cases h2 : l.Len ≤ s
        · rw [if_pos h2]
          obtain ⟨w1, w2⟩ :=
            ihr hr (s - l.Len) (e - l.Len) (by omega) (by omega)
          refine ⟨w1, ?_⟩
          rw [w2, Node.String, List.take_append_eq_append_take,
            List.take_of_length_le (by omega : l.String.length ≤ e),
            List.drop_append_eq_append_drop,
            List.drop_eq_nil_of_le (by omega : l.String.length ≤ s), hlS]
          simp
        · rw [if_neg h2]
          obtain ⟨w1, w2⟩ := ihl hl s l.Len (by omega) (le_refl _)
          obtain ⟨w3, w4⟩ := ihr hr 0 (e - l.Len) (by omega) (by omega)
          obtain ⟨j1, j2⟩ :=
            avlJoin_wf_mat ((l.Slice s l.Len).size + (r.Slice 0 (e - l.Len)).size)
              (l.Slice s l.Len) (r.Slice 0 (e - l.Len)) (le_refl _) w1 w3
          refine ⟨j1, ?_⟩
          rw [show JoinNodes (l.Slice s l.Len) (r.Slice 0 (e - l.Len))
              = avlJoin (l.Slice s l.Len) (r.Slice 0 (e - l.Len)) from rfl,
            j2, w2, w4, Node.String, List.take_append_eq_append_take,
            List.take_of_length_le (by omega : l.String.length ≤ e),
            List.drop_append_eq_append_drop,
            (by omega : s - l.String.length = 0), hlS,
            (by rw [hlS] : l.String.take l.Len = l.String.take l.String.length),
            List.take_length, List.drop_zero]

theorem FibInvb_concat_iff (l r : Node) (len d ln : Nat) :
    FibInvb (.concat l r len d ln) = true
      ↔ FibInvb l = true ∧ FibInvb r = true ∧ Nat.fib (d + 2) ≤ len := by
  simp [FibInvb, and_assoc]

theorem fibinv_len_pos (n : Node) (h : FibInvb n = true) : 0 < n.Len := by
  cases n with
  | leaf v ln =>
    simp only [FibInvb, decide_eq_true_eq, Nat.fib_two] at h
    simpa [Node.Len] using h
  | concat l r len d ln =>
    rw [FibInvb_concat_iff] at h
    have hf : 0 < Nat.fib (d + 2) := Nat.fib_pos.mpr (by omega)
    simp only [Node.Len]
    omega

theorem collectLeaves_ne_nil (n : Node) : collectLeaves n ≠ [] := by
  induction n with
  | leaf v ln => simp [collectLeaves]
  | concat l r a b c ihl ihr => simp [collectLeaves, ihl]

theorem collectLeaves_props (n : Node) :
    WFb n = true → FibInvb n = true →
      ∀ x ∈ collectLeaves n,
        WFb x = true ∧ FibInvb x = true ∧ x.Depth = 0 ∧ 1 ≤ x.Len := by
  induction n with
  | leaf v ln =>
    intro hw hf x hx
    simp only [collectLeaves, List.mem_singleton] at hx
    subst hx
    refine ⟨hw, hf, rfl, ?_⟩
    simp only [FibInvb, decide_eq_true_eq, Nat.fib_two] at hf
    simpa [Node.Len] using hf
  | concat l r a b c ihl ihr =>
    intro hw hf x hx
    rw [WFb_concat_iff] at hw
    rw [FibInvb_concat_iff] at hf
    simp only [collectLeaves, List.mem_append] at hx
    rcases hx with hx | hx
    · exact ihl hw.1 hf.1 x hx
    · exact ihr hw.2.1 hf.2.1 x hx

theorem buildBalanced_spec :
    ∀ (k : Nat) (ls : List Node), ls.length ≤ k → ls ≠ [] →
      (∀ x ∈ ls, WFb x = true ∧ FibInvb x = true ∧ x.Depth = 0 ∧ 1 ≤ x.Len) →
      WFb (buildBalanced ls) = true ∧ FibInvb (buildBalanced ls) = true
        ∧ Nat.fib ((buildBalanced ls).Depth + 2) ≤ ls.length
        ∧ Nat.fib ((buildBalanced ls).Depth + 1) ≤ (ls.length + 1) / 2
        ∧ ls.length ≤ (buildBalanced ls).Len := by
  intro k
  induction k with
  | zero =>
    intro ls hk hne _
    cases ls with
    | nil => exact absurd rfl hne
    | cons x t => simp at hk
  | succ k ih =>
    intro ls hk hne hall
    cases ls with
    | nil => exact absurd rfl hne
    | cons x t =>
      cases t with
      | nil =>
        simp only [buildBalanced]
        obtain ⟨w1, w2, w3, w4⟩ := hall x (by simp)
        refine ⟨w1, w2, ?_, ?_, ?_⟩ <;>
          simp [w3, Nat.fib_two, Nat.fib_one, w4]
      | cons y rest =>
        simp only [buildBalanced]
        have hL : (x :: y :: rest).length = rest.length + 2 := by simp
        have hmidA : ((x :: y :: rest).take ((x :: y :: rest).length / 2)).length
            = (x :: y :: rest).length / 2 := by
          rw [List.length_take]
          omega
        have hmidB : ((x :: y :: rest).drop ((x :: y :: rest).length / 2)).length
            = (x :: y :: rest).length - (x :: y :: rest).length / 2 := by
          rw [List.length_drop]
        obtain ⟨a1, a2, a3, a4, a5⟩ :=
          ih ((x :: y :: rest).take ((x :: y :: rest).length / 2))
            (by
              rw [hmidA]
              omega)
            (by
              rw [← List.length_pos, hmidA]
              omega)
            (fun z hz => hall z (List.take_subset _ _ hz))
        obtain ⟨b1, b2, b3, b4, b5⟩ :=
          ih ((x :: y :: rest).drop ((x :: y :: rest).length / 2))
            (by
              rw [hmidB]
              omega)
            (by
              rw [← List.length_pos, hmidB]
              omega)
            (fun z hz => hall z (List.drop_subset _ _ hz))
        rw [hmidA] at a3 a4 a5
        rw [hmidB] at b3 b4 b5
        set A := buildBalanced ((x :: y :: rest).take ((x :: y :: rest).length / 2))
        set B := buildBalanced ((x :: y :: rest).drop ((x :: y :: rest).length / 2))
        rcases Nat.le_total A.Depth B.Depth with hmx | hmx
        · have hmax : max A.Depth B.Depth = B.Depth := Nat.max_eq_right hmx
          have heq : Nat.fib (B.Depth + 1 + 2)
              = Nat.fib (B.Depth + 1) + Nat.fib (B.Depth + 2) :=
            @Nat.fib_add_two (B.Depth + 1)
          have hm1 : Nat.fib (A.Depth + 1) ≤ Nat.fib (B.Depth + 1) :=
            Nat.fib_mono (by omega)
          refine ⟨WFb_NewConcat _ _ a1 b1, ?_, ?_, ?_, ?_⟩
          · rw [NewConcat, FibInvb_concat_iff]
            refine ⟨a2, b2, ?_⟩
            rw [hmax, (by omega : 1 + B.Depth + 2 = B.Depth + 1 + 2), heq]
            omega
          · rw [Depth_NewConcat, hmax,
              (by omega : 1 + B.Depth + 2 = B.Depth + 1 + 2), heq]
            omega
          · rw [Depth_NewConcat, hmax,
              (by omega : 1 + B.Depth + 1 = B.Depth + 2)]
            omega
          · rw [Len_NewConcat]
            omega
        · have hmax : max A.Depth B.Depth = A.Depth := Nat.max_eq_left hmx
          have heq : Nat.fib (A.Depth + 1 + 2)
              = Nat.fib (A.Depth + 1) + Nat.fib (A.Depth + 2) :=
            @Nat.fib_add_two (A.Depth + 1)
          have hm1 : Nat.fib (B.Depth + 1) ≤ Nat.fib (A.Depth + 1) :=
            Nat.fib_mono (by omega)
          refine ⟨WFb_NewConcat _ _ a1 b1, ?_, ?_, ?_, ?_⟩
          · rw [NewConcat, FibInvb_concat_iff]
            refine ⟨a2, b2, ?_⟩
            rw [hmax, (by omega : 1 + A.Depth + 2 = A.Depth + 1 + 2), heq]
            omega
          · rw [Depth_NewConcat, hmax,
              (by omega : 1 + A.Depth + 2 = A.Depth + 1 + 2), heq]
            omega
          · rw [Depth_NewConcat, hmax,
              (by omega : 1 + A.Depth + 1 = A.Depth + 2)]
            omega
          · rw [Len_NewConcat]
            omega

theorem avlJoin_avl :
    ∀ (N : Nat) (l r : Node), l.size + r.size ≤ N →
      WFb l = true → AVLb l = true → NECb l = true →
      WFb r = true → AVLb r = true → NECb r = true →
      AVLb (avlJoin l r) = true ∧ NECb (avlJoin l r) = true
        ∧ max l.Depth r.Depth ≤ (avlJoin l r).Depth
        ∧ (avlJoin l r).Depth ≤ max l.Depth r.Depth + 1 := by
  intro N
  induction N with
  | zero =>
    intro l r hN _ _ _ _ _ _
    have := size_pos l
    have := size_pos r
    omega
  | succ N ih =>
    intro l r hN hwl hal hnl hwr har hnr
    by_cases h1 : l.Len = 0
    · rw [avlJoin_empty_left l r h1]
      have hd0 : l.Depth = 0 := len_zero_leaf_depth l hwl hnl h1
      exact ⟨har, hnr, by omega, by omega⟩
    · by_cases h2 : r.Len = 0
      · rw [avlJoin_empty_right l r h1 h2]
        have hd0 : r.Depth = 0 := len_zero_leaf_depth r hwr hnr h2
        exact ⟨hal, hnl, by omega, by omega⟩
      · cases hm : TryMergeLeaves l r with
        | some m =>
          rw [avlJoin_merge l r m h1 h2 hm]
          obtain ⟨-, -, -, -, w5, -, w7, w8, w9, w10⟩ :=
            tryMergeLeaves_some l r m hwl hwr hm
          exact ⟨w9, w10, by omega, by omega⟩
        | none =>
          by_cases h3 : l.Depth > r.Depth + 1
          · cases l with
            | leaf v ln =>
              simp only [Depth_leaf] at h3
              omega
            | concat ll lr x y z =>
              rw [avlJoin_left_deep ll lr x y z r h1 h2 hm h3]
              rw [WFb_concat_iff] at hwl
              obtain ⟨hwll, hwlr, hx, hy, hz⟩ := hwl
              rw [AVLb_concat_iff] at hal
              obtain ⟨hall, halr, ha1, ha2⟩ := hal
              rw [NECb_concat_iff] at hnl
              obtain ⟨hnll, hnlr, hp1, hp2⟩ := hnl
              simp only [Depth_concat] at h3 ⊢
              have hsz : lr.size + r.size ≤ N := by
                have hs : (Node.concat ll lr x y z).size
                    = 1 + ll.size + lr.size := rfl
                have := size_pos ll
                omega
              obtain ⟨ja, jn, jdl, jdu⟩ :=
                ih lr r hsz hwlr halr hnlr hwr har hnr
              obtain ⟨jw, jmat⟩ :=
                avlJoin_wf_mat (lr.size + r.size) lr r (le_refl _) hwlr hwr
              have hbrlen : (avlJoin lr r).Len = lr.Len + r.Len := by
                rw [← (wf_string _ jw).1, jmat, List.length_append,
                  (wf_string lr hwlr).1, (wf_string r hwr).1]
              simp only [Len_concat] at h2
              obtain ⟨ba, bn, bdl, bdu, bdeq⟩ :=
                balance_avl ll (avlJoin lr r) hwll hall hnll jw ja jn
                  hp1 (by omega) (by omega) (by omega)
              refine ⟨ba, bn, ?_, ?_⟩
              · by_cases hdd : ll.Depth ≤ (avlJoin lr r).Depth + 1
                    ∧ (avlJoin lr r).Depth ≤ ll.Depth + 1
                · have := bdeq hdd.1 hdd.2
                  omega
                · omega
              · omega
          · by_cases h4 : r.Depth > l.Depth + 1
            · cases r with
              | leaf v ln =>
                simp only [Depth_leaf] at h4
                omega
              | concat rl rr x y z =>
                rw [avlJoin_right_deep l rl rr x y z h1 h2 hm h3 h4]
                rw [WFb_concat_iff] at hwr
                obtain ⟨hwrl, hwrr, hx, hy, hz⟩ := hwr
                rw [AVLb_concat_iff] at har
                obtain ⟨harl, harr, ha1, ha2⟩ := har
                rw [NECb_concat_iff] at hnr
                obtain ⟨hnrl, hnrr, hp1, hp2⟩ := hnr
                simp only [Depth_concat] at h3 h4 ⊢
                have hsz : l.size + rl.size ≤ N := by
                  have hs : (Node.concat rl rr x y z).size
                      = 1 + rl.size + rr.size := rfl
                  have := size_pos rr
                  omega
                obtain ⟨ja, jn, jdl, jdu⟩ :=
                  ih l rl hsz hwl hal hnl hwrl harl hnrl
                obtain ⟨jw, jmat⟩ :=
                  avlJoin_wf_mat (l.size + rl.size) l rl (le_refl _) hwl hwrl
                have hbrlen : (avlJoin l rl).Len = l.Len + rl.Len := by
                  rw [← (wf_string _ jw).1, jmat, List.length_append,
                    (wf_string l hwl).1, (wf_string rl hwrl).1]
                obtain ⟨ba, bn, bdl, bdu, bdeq⟩ :=
                  balance_avl (avlJoin l rl) rr jw ja jn hwrr harr hnrr
                    (by omega) hp2 (by omega) (by omega)
                refine ⟨ba, bn, ?_, ?_⟩
                · by_cases hdd : (avlJoin l rl).Depth ≤ rr.Depth + 1
                      ∧ rr.Depth ≤ (avlJoin l rl).Depth + 1
                  · have := bdeq hdd.1 hdd.2
                    omega
                  · omega
                · omega
            · rw [avlJoin_eq_newConcat l r h1 h2 hm (by omega) (by omega)]
              refine ⟨?_, ?_, ?_, ?_⟩
              · rw [NewConcat, AVLb_concat_iff]
                exact ⟨hal, har, by omega, by omega⟩
              · rw [NewConcat, NECb_concat_iff]
                exact ⟨hnl, hnr, by omega, by omega⟩
              · rw [Depth_NewConcat]
                omega
              · rw [Depth_NewConcat]
                omega

theorem collectLeaves_NewConcat (l r : Node) :
    collectLeaves (NewConcat l r) = collectLeaves l ++ collectLeaves r := rfl

theorem fibRebalance_fibinv (l r : Node) (hwl : WFb l = true)
    (hwr : WFb r = true) (hfl : FibInvb l = true) (hfr : FibInvb r = true) :
    WFb (fibRebalance (NewConcat l r)) = true
      ∧ FibInvb (fibRebalance (NewConcat l r)) = true := by
  unfold fibRebalance
  rw [collectLeaves_NewConcat]
  have hne : collectLeaves l ++ collectLeaves r ≠ [] := by
    simp [collectLeaves_ne_nil l]
  have hall : ∀ x ∈ collectLeaves l ++ collectLeaves r,
      WFb x = true ∧ FibInvb x = true ∧ x.Depth = 0 ∧ 1 ≤ x.Len := by
    intro x hx
    rcases List.mem_append.mp hx with h | h
    · exact collectLeaves_props l hwl hfl x h
    · exact collectLeaves_props r hwr hfr x h
  obtain ⟨w1, w2, -, -, -⟩ :=
    buildBalanced_spec (collectLeaves l ++ collectLeaves r).length
      (collectLeaves l ++ collectLeaves r) (le_refl _) hne hall
  exact ⟨w1, w2⟩

theorem fibJoin_fibinv (l r : Node) (hwl : WFb l = true) (hwr : WFb r = true)
    (hfl : FibInvb l = true) (hfr : FibInvb r = true) :
    WFb (fibJoin l r) = true ∧ FibInvb (fibJoin l r) = true
      ∧ (TryMergeLeaves l r = none →
          (NewConcat l r).Len < Nat.fib ((NewConcat l r).Depth + 2) →
          fibJoin l r = fibRebalance (NewConcat l r)) := by
  have hl0 : ¬ l.Len = 0 := by
    have := fibinv_len_pos l hfl
    omega
  have hr0 : ¬ r.Len = 0 := by
    have := fibinv_len_pos r hfr
    omega
  cases hm : TryMergeLeaves l r with
  | some m =>
    have hj : fibJoin l r = m := by
      simp only [fibJoin, hm]
      rw [if_neg hl0, if_neg hr0]
    rw [hj]
    obtain ⟨w1, -, -, -, -, w6, -, -, -, -⟩ :=
      tryMergeLeaves_some l r m hwl hwr hm
    exact ⟨w1, w6 (by omega), fun hc => Option.noConfusion hc⟩
  | none =>
    simp only [fibJoin, hm]
    rw [if_neg hl0, if_neg hr0]
    by_cases hd : (NewConcat l r).Depth + 2 ≥ fibsLen
    · rw [if_pos hd]
      obtain ⟨w1, w2⟩ := fibRebalance_fibinv l r hwl hwr hfl hfr
      exact ⟨w1, w2, fun _ _ => rfl⟩
    · rw [if_neg hd]
      by_cases hlen : (NewConcat l r).Len < Nat.fib ((NewConcat l r).Depth + 2)
      · rw [if_pos hlen]
        obtain ⟨w1, w2⟩ := fibRebalance_fibinv l r hwl hwr hfl hfr
        exact ⟨w1, w2, fun _ _ => rfl⟩
      · rw [if_neg hlen]
        refine ⟨WFb_NewConcat _ _ hwl hwr, ?_, fun _ hc => absurd hc hlen⟩
        rw [NewConcat, FibInvb_concat_iff]
        refine ⟨hfl, hfr, ?_⟩
        simp only [Len_NewConcat, Depth_NewConcat, Nat.not_lt] at hlen
        exact hlen

theorem lastLineLen_spec (n : Node) (hw : WFb n = true) :
    lastLineLen n = (n.String.length : Int) - (lastIndexNL n.String + 1) := by
  induction n with
  | leaf v ln =>
    simp only [lastLineLen, Node.String]
    by_cases h : lastIndexNL v = -1
    · rw [if_pos h, h]
      ring
    · rw [if_neg h]
  | concat l r len d ln ihl ihr =>
    rw [WFb_concat_iff] at hw
    obtain ⟨hl, hr, hlen, hd, hln⟩ := hw
    obtain ⟨hlS, hlC⟩ := wf_string l hl
    obtain ⟨hrS, hrC⟩ := wf_string r hr
    simp only [lastLineLen, Node.String]
    by_cases hc : r.Lines > 0
    · rw [if_pos hc, ihr hr, lastIndexNL_append,
        if_neg (by omega), List.length_append]
      push_cast
      omega
    · rw [if_neg hc, ihl hl, lastIndexNL_append,
        if_pos (by omega), List.length_append]
      push_cast
      omega

theorem offsetToRowColRec_spec (n : Node) :
    WFb n = true → ∀ off : Nat, off ≤ n.Len →
      offsetToRowColRec n off
        = ((countNL (n.String.take off) : Int),
           (off : Int) - (lastIndexNL (n.String.take off) + 1)) := by
  induction n with
  | leaf v ln =>
    intro _ off _
    simp [offsetToRowColRec, Node.String]
  | concat l r len d ln ihl ihr =>
    intro hw off hoff
    rw [WFb_concat_iff] at hw
    obtain ⟨hl, hr, hlen, hd, hln⟩ := hw
    obtain ⟨hlS, hlC⟩ := wf_string l hl
    obtain ⟨hrS, hrC⟩ := wf_string r hr
    rw [Node.Len] at hoff
    simp only [offsetToRowColRec, Node.String]
    by_cases hc : off < l.Len
    · rw [if_pos hc, ihl hl off (by omega),
        List.take_append_eq_append_take,
        (by omega : off - l.String.length = 0)]
      simp
    · rw [if_neg hc, ihr hr (off - l.Len) (by omega),
        List.take_append_eq_append_take,
        List.take_of_length_le (by omega : l.String.length ≤ off), hlS,
        countNL_append, lastIndexNL_append, hlC]
      by_cases hz : countNL (r.String.take (off - l.Len)) = 0
      · have hidx : lastIndexNL (r.String.take (off - l.Len)) = -1 :=
          (lastIndexNL_neg_iff _).mpr hz
        rw [if_pos (by rw [hz] ; rfl), if_pos hz, lastLineLen_spec l hl,
          Prod.mk.injEq]
        refine ⟨by push_cast ; omega, ?_⟩
        rw [hidx]
        have hgl := lastIndexNL_ge l.String
        push_cast
        omega
      · rw [if_neg (by simpa using hz), if_neg hz, Prod.mk.injEq]
        refine ⟨by push_cast ; omega, ?_⟩
        rw [hlS]
        push_cast
        omega

/-!
Claim C1 (`RowColToOffset`).  The Go `rowColToOffsetRec` handles
`row > left.Lines()` at a Concat with an abandoned placeholder that returns
`-1` instead of recursing into the right child, so an in-range (row, col)
whose row lies beyond the left child's newline count is never found.
The rope below materializes to `"ab\nc"` (bytes 97 98 10 99): the byte at
row 1, col 0 is the `'c'` at offset 3 — `OffsetToRowCol` agrees — yet
`RowColToOffset` returns `-1`.
-/

/-- Claim C1, code bug: on the rope `"a" ++ "b\nc"` the search for
(row 1, col 0) returns `-1`, although that position exists: it is offset 3,
as the second conjunct (and the Go source's own doc comment for
`RowColToOffset`) shows it should be found. -/
theorem claim_C1_rowcol_placeholder :
    RowColToOffset (some (NewConcat (NewLeaf [97]) (NewLeaf [98, 10, 99]))) 1 0 = -1
  ∧ OffsetToRowCol (some (NewConcat (NewLeaf [97]) (NewLeaf [98, 10, 99]))) 3 = (1, 0) := by
  constructor <;> decide

/-!
Claim C2 (index round-trip).  The round-trip fails on ropes produced by the
public operations: `Join` of two leaves too large to coalesce puts the later
rows in the right child, where `RowColToOffset`'s placeholder returns `-1`.
-/

theorem avlJoin_c2_eval :
    avlJoin (NewLeaf (List.replicate 200 97)) (NewLeaf (10 :: List.replicate 60 98))
      = NewConcat (NewLeaf (List.replicate 200 97)) (NewLeaf (10 :: List.replicate 60 98)) :=
  avlJoin_eq_newConcat _ _ (by decide) (by decide) (by decide) (by decide) (by decide)

/-- Claim C2, code bug: for the rope `Join(Leaf("a"×200), Leaf("\n" ++ "b"×60))`
— built by the public AVL `Join` — and offset 205, `OffsetToRowCol` returns
(1, 4) but feeding (1, 4) back into `RowColToOffset` yields `-1`, not 205. -/
theorem claim_C2_roundtrip_fails :
    OffsetToRowCol
        (some (avlJoin (NewLeaf (List.replicate 200 97)) (NewLeaf (10 :: List.replicate 60 98))))
        205 = (1, 4)
  ∧ RowColToOffset
        (some (avlJoin (NewLeaf (List.replicate 200 97)) (NewLeaf (10 :: List.replicate 60 98))))
        1 4 = -1 := by
  rw [avlJoin_c2_eval]
  constructor <;> decide

/-!
Claim C10 (UTF-8 column mismatch).  `rowColToOffsetRec` scans a leaf by
runes, so the byte index `i` skips over continuation bytes and a byte-based
column strictly inside a multi-byte sequence is never matched, while
`OffsetToRowCol` produces exactly such columns.
-/

/-- Claim C10, confirmed: on the single-leaf rope `"é"` (bytes 195 169) and
offset 1 (inside the two-byte sequence), `OffsetToRowCol` returns (0, 1) but
`RowColToOffset` at (0, 1) returns `-1`, not 1. -/
theorem claim_C10_utf8_mismatch :
    OffsetToRowCol (some (NewLeaf [195, 169])) 1 = (0, 1)
  ∧ RowColToOffset (some (NewLeaf [195, 169])) 0 1 = -1 := by
  constructor <;> decide

/-!
Claim C3 (`OffsetToRowCol`).  For a well-formed node and an in-range offset,
the result is the newline count of the materialized prefix before the offset
and the distance past the last newline in that prefix (`lastIndexNL` is `-1`
when no earlier newline exists, making the column the offset itself); out of
range, negative, or nil inputs give `(-1, -1)`.  The continuation-line
adjustment through `lastLineLen` is what `lastLineLen_spec` and the
`offsetToRowColRec_spec` induction verify.
-/

/-- Claim C3, confirmed: `OffsetToRowCol(n, offset)` returns the row
`countNL(prefix)` and the column `offset - (last newline index in prefix) - 1`
(the index being `-1` when there is none, so the column degenerates to
`offset`), where `prefix` is the first `offset` bytes of the materialization;
and it returns `(-1, -1)` for a nil node, a negative offset, or an offset
beyond the length. -/
theorem claim_C3_offset_to_rowcol :
    (∀ n : Node, WFb n = true → ∀ offset : Int,
        0 ≤ offset → offset ≤ (n.Len : Int) →
        OffsetToRowCol (some n) offset
          = ((countNL (n.String.take offset.toNat) : Int),
             offset - (lastIndexNL (n.String.take offset.toNat) + 1)))
  ∧ (∀ (n : Node) (offset : Int), offset < 0 ∨ (n.Len : Int) < offset →
        OffsetToRowCol (some n) offset = (-1, -1))
  ∧ (∀ offset : Int, OffsetToRowCol none offset = (-1, -1)) := by
  refine ⟨?_, ?_, fun _ => rfl⟩
  · intro n hw offset h0 h1
    simp only [OffsetToRowCol]
    rw [if_neg (by omega), if_neg (by omega),
      offsetToRowColRec_spec n hw offset.toNat (by omega),
      Int.toNat_of_nonneg h0]
  · intro n offset h
    simp only [OffsetToRowCol]
    by_cases h2 : offset < 0
    · rw [if_pos h2]
    · rw [if_neg h2, if_pos (by omega)]

theorem claim_C3_witness :
    OffsetToRowCol (some (NewConcat (NewLeaf [97]) (NewLeaf [98, 10, 99]))) 2
      = ((countNL ((NewConcat (NewLeaf [97])
            (NewLeaf [98, 10, 99])).String.take ((2 : Int).toNat)) : Int),
         2 - (lastIndexNL ((NewConcat (NewLeaf [97])
            (NewLeaf [98, 10, 99])).String.take ((2 : Int).toNat)) + 1))
  ∧ OffsetToRowCol (some (NewLeaf [97])) 5 = (-1, -1)
  ∧ OffsetToRowCol none 7 = (-1, -1) :=
  ⟨claim_C3_offset_to_rowcol.1 (NewConcat (NewLeaf [97]) (NewLeaf [98, 10, 99]))
      (by decide) 2 (by decide) (by decide),
   claim_C3_offset_to_rowcol.2.1 (NewLeaf [97]) 5 (by decide),
   claim_C3_offset_to_rowcol.2.2 7⟩

/-!
Claim C6 (coalescing).  The balancers only coalesce their two *arguments*:
joining a Concat with a small leaf when depths are within 1 plainly
concatenates, so a balancer-produced tree can hold adjacent leaves whose
combined length is well below 256.
-/

theorem avlJoin_c6_inner_eval :
    avlJoin (NewLeaf (List.replicate 300 97)) (NewLeaf (List.replicate 10 98))
      = NewConcat (NewLeaf (List.replicate 300 97)) (NewLeaf (List.replicate 10 98)) :=
  avlJoin_eq_newConcat _ _ (by decide) (by decide) (by decide) (by decide) (by decide)

theorem avlJoin_c6_outer_eval :
    avlJoin (NewConcat (NewLeaf (List.replicate 300 97)) (NewLeaf (List.replicate 10 98)))
        (NewLeaf (List.replicate 10 99))
      = NewConcat
          (NewConcat (NewLeaf (List.replicate 300 97)) (NewLeaf (List.replicate 10 98)))
          (NewLeaf (List.replicate 10 99)) :=
  avlJoin_eq_newConcat _ _ (by decide) (by decide) (by decide) (by decide) (by decide)

/-- Claim C6, counterexample: the AVL-balancer tree
`Join(Join(Leaf("a"×300), Leaf("b"×10)), Leaf("c"×10))` — every input a leaf,
every intermediate balancer-produced — contains the adjacent leaves
`"b"×10` and `"c"×10` with combined length 20 ≤ 256. -/
theorem claim_C6_counterexample :
    adjacentPairsOK (leafSizes
      (avlJoin
        (avlJoin (NewLeaf (List.replicate 300 97)) (NewLeaf (List.replicate 10 98)))
        (NewLeaf (List.replicate 10 99)))) = false := by
  rw [avlJoin_c6_inner_eval, avlJoin_c6_outer_eval]
  decide

/-- Claim C6 as amended: the coalescing happens between the two nodes a
balancer is handed, not across a produced tree.  `TryMergeLeaves` fuses two
leaves of combined length ≤ 256 into one leaf whose newline count is the sum
of the two cached counts, and the AVL join of two such leaves returns exactly
that merged leaf (an empty side degenerates to the same leaf); but adjacent
leaves inside a balancer-produced tree may keep a combined length ≤ 256. -/
theorem claim_C6_amended (a b : List Nat)
    (h : a.length + b.length ≤ MaxLeafMergeSize) :
    TryMergeLeaves (NewLeaf a) (NewLeaf b)
        = some (Node.leaf (a ++ b) (countNL a + countNL b))
  ∧ avlJoin (NewLeaf a) (NewLeaf b)
        = Node.leaf (a ++ b) (countNL a + countNL b) := by
  have hm : TryMergeLeaves (NewLeaf a) (NewLeaf b)
      = some (Node.leaf (a ++ b) (countNL a + countNL b)) := by
    unfold TryMergeLeaves
    rw [if_neg (by simp only [NewLeaf, Node.Len] ; omega)]
    rfl
  refine ⟨hm, ?_⟩
  rw [avlJoin.eq_def]
  by_cases ha : (NewLeaf a).Len = 0
  · rw [if_pos ha]
    have ha0 : a = [] := by
      simpa [NewLeaf, Node.Len] using ha
    subst ha0
    simp [NewLeaf, countNL]
  · rw [if_neg ha]
    by_cases hb : (NewLeaf b).Len = 0
    · rw [if_pos hb]
      have hb0 : b = [] := by
        simpa [NewLeaf, Node.Len] using hb
      subst hb0
      simp [NewLeaf, countNL]
    · rw [if_neg hb, hm, Option.getD_some]

theorem claim_C6_witness :
    TryMergeLeaves (NewLeaf [97]) (NewLeaf [98])
        = some (Node.leaf ([97] ++ [98]) (countNL [97] + countNL [98]))
  ∧ avlJoin (NewLeaf [97]) (NewLeaf [98])
        = Node.leaf ([97] ++ [98]) (countNL [97] + countNL [98]) :=
  claim_C6_amended [97] [98] (by decide)

/-!
Claim C7 (slicing).  A whole-range slice returns the node itself, and a
slice confined to one child returns that child's slice, so slicing a
hand-built imbalanced tree does not generally return a balanced node; only
spanning slices rejoin through the AVL balancer.
-/

/-- Claim C7, counterexample: on the hand-built left-deep tree
`concat(concat(concat(a, b), c), d)` (all single-byte leaves built with the
raw constructors), `Slice(0, Len)` returns the tree itself, which violates
the AVL balance at its root — not a "valid balanced node". -/
theorem claim_C7_counterexample :
    AVLb ((NewConcat (NewConcat (NewConcat (NewLeaf [97]) (NewLeaf [98]))
        (NewLeaf [99])) (NewLeaf [100])).Slice 0
      (NewConcat (NewConcat (NewConcat (NewLeaf [97]) (NewLeaf [98]))
        (NewLeaf [99])) (NewLeaf [100])).Len) = false := by
  decide

/-!
Claim C4 (AVL balancer).  For well-formed inputs satisfying the AVL
invariant everywhere with no empty concat children — true of leaves and
preserved by the balancer itself (the join below returns a tree that again
satisfies all three) — `AVLBalancer.Join` concatenates the contents and
returns a tree in which every Concat has child depths within 1.
-/

/-- Claim C4, confirmed: if `l` and `r` are AVL-balanced, well-formed, and
have no empty concat children (the invariants of balancer-produced trees and
of leaves), then `AVLBalancer.Join(l, r)` materializes to `l`'s content
followed by `r`'s content and every Concat of the result satisfies
`|left.Depth() - right.Depth()| ≤ 1`. -/
theorem claim_C4_avl_join (l r : Node)
    (hwl : WFb l = true) (hal : AVLb l = true) (hnl : NECb l = true)
    (hwr : WFb r = true) (har : AVLb r = true) (hnr : NECb r = true) :
    (avlJoin l r).String = l.String ++ r.String
      ∧ AVLb (avlJoin l r) = true :=
  ⟨(avlJoin_wf_mat (l.size + r.size) l r (le_refl _) hwl hwr).2,
   (avlJoin_avl (l.size + r.size) l r (le_refl _) hwl hal hnl hwr har hnr).1⟩

theorem claim_C4_witness :
    (avlJoin (NewLeaf (List.replicate 300 97))
        (NewLeaf (List.replicate 300 98))).String
      = (NewLeaf (List.replicate 300 97)).String
          ++ (NewLeaf (List.replicate 300 98)).String
  ∧ AVLb (avlJoin (NewLeaf (List.replicate 300 97))
        (NewLeaf (List.replicate 300 98))) = true :=
  claim_C4_avl_join (NewLeaf (List.replicate 300 97))
    (NewLeaf (List.replicate 300 98))
    (by decide) (by decide) (by decide) (by decide) (by decide) (by decide)

/-!
Claim C5 (Fibonacci balancer).  `FibInvb` is the invariant the Fibonacci
balancer maintains (`length ≥ fib (depth + 2)` at every node); nodes produced
by the balancer and non-empty leaves satisfy it, and `fibJoin` preserves it,
rebuilding from the in-order leaf sequence when the cheap concat would
violate it at the root (or fall off the precomputed table).
-/

/-- Claim C5, confirmed: if `l` and `r` satisfy the Fibonacci invariant
(true of non-empty leaves and preserved by the balancer itself, as this very
theorem shows), every node of `FibonacciBalancer.Join(l, r)` satisfies
`length ≥ fib (depth + 2)`; and whenever the cheap concat's root would
violate the bound, the result is the rebuilt balanced tree over the leaf
sequence. -/
theorem claim_C5_fib_join (l r : Node)
    (hwl : WFb l = true) (hwr : WFb r = true)
    (hfl : FibInvb l = true) (hfr : FibInvb r = true) :
    FibInvb (fibJoin l r) = true
      ∧ (TryMergeLeaves l r = none →
          (NewConcat l r).Len < Nat.fib ((NewConcat l r).Depth + 2) →
          fibJoin l r = fibRebalance (NewConcat l r)) :=
  ⟨(fibJoin_fibinv l r hwl hwr hfl hfr).2.1,
   (fibJoin_fibinv l r hwl hwr hfl hfr).2.2⟩

theorem claim_C5_witness :
    FibInvb (fibJoin (NewLeaf (List.replicate 200 97))
        (NewLeaf (List.replicate 100 98))) = true
      ∧ (TryMergeLeaves (NewLeaf (List.replicate 200 97))
            (NewLeaf (List.replicate 100 98)) = none →
          (NewConcat (NewLeaf (List.replicate 200 97))
              (NewLeaf (List.replicate 100 98))).Len
            < Nat.fib ((NewConcat (NewLeaf (List.replicate 200 97))
              (NewLeaf (List.replicate 100 98))).Depth + 2) →
          fibJoin (NewLeaf (List.replicate 200 97))
              (NewLeaf (List.replicate 100 98))
            = fibRebalance (NewConcat (NewLeaf (List.replicate 200 97))
              (NewLeaf (List.replicate 100 98)))) :=
  claim_C5_fib_join (NewLeaf (List.replicate 200 97))
    (NewLeaf (List.replicate 100 98))
    (by decide) (by decide) (by decide) (by decide)

/-- Claim C7 as amended: `Slice(start, end)` on any well-formed node with
`0 ≤ start ≤ end ≤ Len` returns a well-formed node materializing exactly the
requested byte range (spanning slices are rejoined through the AVL balancer,
as `Node.Slice` does through `JoinNodes`); the result is not in general
balanced when the source is imbalanced, because whole-range and single-child
slices return the (sub)tree unchanged. -/
theorem claim_C7_amended (n : Node) (hw : WFb n = true) (s e : Nat)
    (hse : s ≤ e) (he : e ≤ n.Len) :
    WFb (n.Slice s e) = true
      ∧ (n.Slice s e).String = (n.String.take e).drop s :=
  slice_spec n hw s e hse he

theorem claim_C7_witness :
    WFb ((NewConcat (NewLeaf [97]) (NewLeaf [98, 10])).Slice 1 2) = true
      ∧ ((NewConcat (NewLeaf [97]) (NewLeaf [98, 10])).Slice 1 2).String
        = (((NewConcat (NewLeaf [97]) (NewLeaf [98, 10])).String).take 2).drop 1 :=
  claim_C7_amended (NewConcat (NewLeaf [97]) (NewLeaf [98, 10]))
    (by decide) 1 2 (by decide) (by decide)

/-!
Claim C9 (fatal contract violations).  `Insert` and `Delete` panic with the
offending index and the full valid range.  `ByteAt` also panics (the Go
runtime index error), but at a Concat the diagnostic carries the index
*translated into the failing leaf* and that leaf's length — not the original
offending index and the node's valid range.
-/

/-- Claim C9, counterexample: `ByteAt` on `concat("ab", "cd")` with index 10
panics with the leaf-local diagnostic (index 8, length 2), not with the
offending index 10 and the valid range of length 4 that the claim states. -/
theorem claim_C9_counterexample :
    errOf ((NewConcat (NewLeaf [97, 98]) (NewLeaf [99, 100])).ByteAt 10)
        = some ⟨8, 2⟩
  ∧ ¬ errOf ((NewConcat (NewLeaf [97, 98]) (NewLeaf [99, 100])).ByteAt 10)
        = some ⟨10, 4⟩ := by
  constructor <;> decide

theorem byteAt_isErr_of_oob (n : Node) (hw : WFb n = true) :
    ∀ idx : Int, (idx < 0 ∨ (n.Len : Int) ≤ idx) → isErr (n.ByteAt idx) = true := by
  induction n with
  | leaf v ln =>
    intro idx h
    have : ¬ (0 ≤ idx ∧ idx < ((v.length : Nat) : Int)) := by
      simp only [Node.Len] at h
      omega
    simp [Node.ByteAt, this, isErr]
  | concat l r len d ln ihl ihr =>
    intro idx h
    simp only [WFb, Bool.and_eq_true, decide_eq_true_eq] at hw
    obtain ⟨⟨⟨⟨hwl, hwr⟩, hlen⟩, -⟩, -⟩ := hw
    simp only [Node.Len] at h
    simp only [Node.ByteAt]
    by_cases hc : idx < (l.Len : Int)
    · rw [if_pos hc]
      exact ihl hwl idx (by omega)
    · rw [if_neg hc]
      exact ihr hwr (idx - l.Len) (by omega)

/-- Claim C9 as amended: out-of-range `Insert`, `Delete` and `ByteAt` all
terminate with an error and return no node/byte.  `Insert` and `Delete`
report the offending indices together with the valid range `[0, n.Len()]`;
`ByteAt` reports the Go runtime index diagnostic of the leaf the descent
lands in (the leaf-local index and that leaf's length). -/
theorem claim_C9_amended :
    (∀ (n : Node) (i : Int) (text : List Nat), (i < 0 ∨ (n.Len : Int) < i) →
      Insert n i text = .error ⟨i, n.Len⟩)
  ∧ (∀ (n : Node) (start stop : Int),
      (start < 0 ∨ (n.Len : Int) < stop ∨ stop < start) →
      Delete n start stop = .error ⟨start, stop, n.Len⟩)
  ∧ (∀ (n : Node) (idx : Int), WFb n = true →
      (idx < 0 ∨ (n.Len : Int) ≤ idx) → isErr (n.ByteAt idx) = true) := by
  refine ⟨?_, ?_, ?_⟩
  · intro n i text h
    rw [Insert, if_pos h]
  · intro n s e h
    rw [Delete, if_pos (by omega)]
  · intro n idx hw h
    exact byteAt_isErr_of_oob n hw idx h

/-!
Claim C8 (cache correctness).  For every well-formed node, `Len` is the byte
length of the materialization and `Lines` the newline count in it, and
well-formedness is preserved by `NewLeaf`, `NewConcat` and `TryMergeLeaves`
(which sums the cached newline counts without rescanning).
-/

/-- Claim C8, confirmed: `n.Len()` and `n.Lines()` equal the byte length and
newline count of `n.String()` for every well-formed node; leaves built by
`NewLeaf` are well-formed, `NewConcat` preserves well-formedness, and a leaf
merged by `TryMergeLeaves` is well-formed with newline count the sum of the
two inputs' cached counts. -/
theorem claim_C8_length_lines :
    (∀ n : Node, WFb n = true →
      n.String.length = n.Len ∧ countNL n.String = n.Lines)
  ∧ (∀ s : List Nat, WFb (NewLeaf s) = true)
  ∧ (∀ l r : Node, WFb l = true → WFb r = true → WFb (NewConcat l r) = true)
  ∧ (∀ l r m : Node, WFb l = true → WFb r = true →
      TryMergeLeaves l r = some m →
      WFb m = true ∧ m.Lines = l.Lines + r.Lines) :=
  ⟨wf_string, WFb_NewLeaf, WFb_NewConcat,
   fun l r m hl hr hm =>
     ⟨(tryMergeLeaves_some l r m hl hr hm).1,
      (tryMergeLeaves_some l r m hl hr hm).2.1⟩⟩

theorem claim_C8_witness :
    ((NewConcat (NewLeaf [97, 10]) (NewLeaf [98])).String.length
        = (NewConcat (NewLeaf [97, 10]) (NewLeaf [98])).Len
      ∧ countNL (NewConcat (NewLeaf [97, 10]) (NewLeaf [98])).String
        = (NewConcat (NewLeaf [97, 10]) (NewLeaf [98])).Lines)
  ∧ WFb (NewLeaf [10]) = true
  ∧ WFb (NewConcat (NewLeaf [97]) (NewLeaf [10])) = true
  ∧ (WFb (Node.leaf [97, 10] 1) = true
      ∧ (Node.leaf [97, 10] 1).Lines
          = (NewLeaf [97]).Lines + (NewLeaf [10]).Lines) :=
  ⟨claim_C8_length_lines.1 _ (by decide),
   claim_C8_length_lines.2.1 [10],
   claim_C8_length_lines.2.2.1 _ _ (by decide) (by decide),
   claim_C8_length_lines.2.2.2 (NewLeaf [97]) (NewLeaf [10])
     (Node.leaf [97, 10] 1) (by decide) (by decide) (by decide)⟩

theorem claim_C9_witness :
    Insert (NewLeaf [97]) 5 [98] = .error ⟨5, 1⟩
  ∧ Delete (NewLeaf [97]) 0 2 = .error ⟨0, 2, 1⟩
  ∧ isErr ((NewLeaf [97]).ByteAt 7) = true :=
  ⟨claim_C9_amended.1 (NewLeaf [97]) 5 [98] (by decide),
   claim_C9_amended.2.1 (NewLeaf [97]) 0 2 (by decide),
   claim_C9_amended.2.2 (NewLeaf [97]) 7 (by decide) (by decide)⟩

end Rope
